import Mathlib

/-!
Verification of the candidate-record normalization and link-generation
pipeline of the HR-Whatsapp-Creator web application (src/web/src/App.jsx).

Strings are modelled as lists of characters (`Str := List Char`), JavaScript
objects (spreadsheet rows) as insertion-ordered association lists with
last-write-wins assignment semantics, and the pure pipeline functions
(`cleanPhone`, `normalizeUrlMaybe`, `ensureColumns`, `fillTemplate`,
`generateMessage`, `encodeForWhatsApp`, the `processed` classifier and the
search filter) are translated definition-by-definition from the source.
-/

abbrev Str := List Char

/-! ## Generic string helpers (JavaScript primitives used by the source) -/

/-- JavaScript whitespace class: the character set matched by the regular
expression class backslash-s and trimmed by String.prototype.trim
(space, tab, vertical tab, form feed, CR, LF, NBSP, Unicode space
separators, line/paragraph separators, BOM). -/
def isJsWs (c : Char) : Bool :=
  decide (c.toNat ∈ ([9, 10, 11, 12, 13, 32, 160, 0x1680, 0x2028, 0x2029,
    0x202F, 0x205F, 0x3000, 0xFEFF] : List Nat))
  || (decide (0x2000 ≤ c.toNat) && decide (c.toNat ≤ 0x200A))

/-- String.prototype.trim: drop JavaScript whitespace from both ends. -/
def trimJs (s : Str) : Str :=
  ((s.dropWhile isJsWs).reverse.dropWhile isJsWs).reverse

/-- String.prototype.toLowerCase restricted to the ASCII range (the only
range relevant to the patterns and header aliases in the source). -/
def lowerStr (s : Str) : Str := s.map Char.toLower

/-- Substring test, as in String.prototype.includes. -/
def hasSub (pat : Str) : Str → Bool
  | [] => pat.isEmpty
  | c :: cs => pat.isPrefixOf (c :: cs) || hasSub pat cs

/-- Global leftmost non-overlapping replacement of the fixed non-empty
pattern p :: ps by rep, as performed by String.prototype.replaceAll with a
string pattern and by String.prototype.replace with a global literal regex.
The fuel argument (instantiated with the string length, an upper bound on
the number of steps) only makes the recursion structural; it never runs
out. -/
def replAux (p : Char) (ps rep : Str) : Nat → Str → Str
  | _, [] => []
  | 0, s => s
  | fuel + 1, c :: cs =>
    if (p :: ps).isPrefixOf (c :: cs) then
      rep ++ replAux p ps rep fuel ((c :: cs).drop (ps.length + 1))
    else
      c :: replAux p ps rep fuel cs

/-- String.prototype.replaceAll.  The source only ever calls it with
non-empty literal patterns, so the empty-pattern case is immaterial. -/
def replaceAllL (pat rep s : Str) : Str :=
  match pat with
  | [] => s
  | p :: ps => replAux p ps rep s.length s

/-! ## Phone normalizer (cleanPhone, App.jsx lines 58-69) -/

/-- Digit-stripped country code with default, from the line
cc = String(countryCode or empty).replace(non-digits, empty) or "91". -/
def defaultCC (countryCode : Str) : Str :=
  let cc := countryCode.filter Char.isDigit
  if cc = [] then ['9', '1'] else cc

/-- cleanPhone(raw, countryCode, autoDetectCountry) from App.jsx.
Note that digits.slice(-10) in JavaScript returns the whole digit string
when it has fewer than 10 digits (negative start is clamped to 0), which
is modelled by List.drop with truncated subtraction. -/
def cleanPhone (raw : Str) (countryCode : Str) (autoDetect : Bool) : Str :=
  if raw = [] then []
  else
    let digits := raw.filter Char.isDigit
    let last10 := digits.drop (digits.length - 10)
    if last10 = [] then []
    else if autoDetect && decide (digits.length > 10) then
      let detected := digits.take (digits.length - 10)
      if detected = [] then defaultCC countryCode ++ last10
      else detected ++ last10
    else defaultCC countryCode ++ last10

/-! ## Secondary-link normalizer (normalizeUrlMaybe, App.jsx lines 116-122) -/

/-- Test for the anchored case-insensitive regex matching http:// or
https:// at the start of the string. -/
def startsHttpScheme (s : Str) : Bool :=
  "http://".toList.isPrefixOf (lowerStr s)
  || "https://".toList.isPrefixOf (lowerStr s)

/-- normalizeUrlMaybe(urlLike) from App.jsx: trim, empty stays empty,
remove all internal whitespace, keep an existing http(s) scheme, otherwise
prepend https://. -/
def normalizeUrlMaybe (urlLike : Str) : Str :=
  let raw := trimJs urlLike
  if raw = [] then []
  else
    let cleaned := raw.filter (fun c => !(isJsWs c))
    if startsHttpScheme cleaned then cleaned
    else "https://".toList ++ cleaned

/-! ## Header canonicalizer (App.jsx lines 6-56, 108-114) -/

/-- Rows are JavaScript objects: insertion-ordered string-keyed maps. -/
abbrev Row := List (Str × Str)

/-- The fixed canonical schema REQUIRED_COLUMNS. -/
def REQUIRED_COLUMNS : List Str :=
  ["Name", "Phone", "Current Role", "Key Skills", "Profile Summary",
   "JD Link"].map String.toList

/-- The HEADER_ALIASES table mapping compacted header variants to
canonical keys. -/
def HEADER_ALIASES : List (Str × Str) :=
  ([("name", "Name"), ("fullname", "Name"), ("candidate", "Name"),
    ("phone", "Phone"), ("phonenumber", "Phone"), ("mobilenumber", "Phone"),
    ("mobile", "Phone"), ("contact", "Phone"),
    ("currentrole", "Current Role"), ("role", "Current Role"),
    ("designation", "Current Role"),
    ("keyskills", "Key Skills"), ("skills", "Key Skills"),
    ("profilesummary", "Profile Summary"), ("summary", "Profile Summary"),
    ("jd", "JD Link"), ("jdlink", "JD Link"), ("jobdescription", "JD Link"),
    ("joblink", "JD Link"), ("link", "JD Link")]
    : List (String × String)).map (fun p => (p.1.toList, p.2.toList))

/-- Association-list lookup by key (first match). -/
def lookupA : List (Str × Str) → Str → Option Str
  | [], _ => none
  | (k', v) :: rest, k => if k' = k then some v else lookupA rest k

/-- Compacted header form: String(key).toLowerCase().replace of everything
outside lowercase a-z and 0-9 by the empty string. -/
def compactKey (k : Str) : Str :=
  (k.map Char.toLower).filter
    (fun c => (decide ('a' ≤ c) && decide (c ≤ 'z')) || c.isDigit)

/-- normalizeHeaderKey(key): alias-table lookup of the compacted header,
falling back to the raw header. -/
def normalizeHeaderKey (k : Str) : Str :=
  (lookupA HEADER_ALIASES (compactKey k)).getD k

/-- JavaScript object property assignment: update the value in place when
the key already exists (keeping its position), otherwise append. -/
def setKey : Row → Str → Str → Row
  | [], k, v => [(k, v)]
  | (k', v') :: rest, k, v =>
    if k' = k then (k, v) :: rest else (k', v') :: setKey rest k v

/-- normalizeRowHeaders(row): rebuild the row with canonicalized keys,
in enumeration order, later assignments overwriting earlier ones. -/
def normalizeRowHeaders (row : Row) : Row :=
  row.foldl (fun acc kv => setKey acc (normalizeHeaderKey kv.1) kv.2) []

/-- ensureColumns(row): canonicalize headers, then add every required
column that is still absent, with the empty string as value. -/
def ensureColumns (row : Row) : Row :=
  REQUIRED_COLUMNS.foldl
    (fun acc key =>
      if acc.any (fun kv => kv.1 == key) then acc else acc ++ [(key, [])])
    (normalizeRowHeaders row)

/-- JavaScript property read row[k] with undefined coalesced to the empty
string (as all call sites do via optional chaining or defaults). -/
def getVal : Row → Str → Str
  | [], _ => []
  | (k', v) :: rest, k => if k' = k then v else getVal rest k

/-! ## Message template engine (App.jsx lines 71-102) -/

/-- The built-in DEFAULT_TEMPLATE string (the second line contains the
three mojibake characters present verbatim in the source file). -/
def DEFAULT_TEMPLATE : Str :=
  (String.intercalate "\n"
    ["Dear *{NAME}*,",
     "I am *Vani, Recruiter at I Knowledge Factory Pvt. Ltd.* â€“ a full-service *digital branding and marketing agency*.",
     "",
     "We reviewed your profile on *Naukri Portal* and found it suitable for the role of *{ROLE}*.",
     "",
     "If you are open to exploring opportunities with us, please review the *Job Description on our website and apply here*: {JD_LINK}",
     "",
     "Once done, I will connect with you to schedule the *screening round*.",
     "",
     "Best regards,",
     "*Vani Jha*",
     "Talent Acquisition Specialist",
     "*+91 9665079317*",
     "*www.ikf.co.in*"]).toList

/-- The three per-record values handed to fillTemplate. -/
structure TplValues where
  name : Str
  role : Str
  jd : Str
deriving DecidableEq, Repr

/-- fillTemplate(template, values): empty template falls back to the
default, then the three known placeholders are literally replaced
everywhere (replaceAll) by the corresponding value. -/
def fillTemplate (template : Str) (v : TplValues) : Str :=
  let safe := if template = [] then DEFAULT_TEMPLATE else template
  replaceAllL "{JD_LINK}".toList v.jd
    (replaceAllL "{ROLE}".toList v.role
      (replaceAllL "{NAME}".toList v.name safe))

/-- generateMessage(row, template): trimmed field values (missing fields
read as the empty string) fed into fillTemplate. -/
def generateMessage (row : Row) (template : Str) : Str :=
  fillTemplate template
    ⟨trimJs (getVal row "Name".toList),
     trimJs (getVal row "Current Role".toList),
     trimJs (getVal row "JD Link".toList)⟩

/-! ## Link encoder (encodeURIComponent and encodeForWhatsApp) -/

/-- Characters left unescaped by encodeURIComponent:
letters, digits, and - _ . ! ~ * quote ( ). -/
def isUnreservedURI (c : Char) : Bool :=
  (decide ('A' ≤ c) && decide (c ≤ 'Z'))
  || (decide ('a' ≤ c) && decide (c ≤ 'z'))
  || (decide ('0' ≤ c) && decide (c ≤ '9'))
  || c == '-' || c == '_' || c == '.' || c == '!' || c == '~' || c == '*'
  || c == Char.ofNat 39 || c == '(' || c == ')'

/-- Standard UTF-8 encoding of a Unicode code point as a byte list. -/
def utf8Encode (n : Nat) : List Nat :=
  if n < 128 then [n]
  else if n < 2048 then [192 + n / 64, 128 + n % 64]
  else if n < 65536 then [224 + n / 4096, 128 + n / 64 % 64, 128 + n % 64]
  else [240 + n / 262144, 128 + n / 4096 % 64, 128 + n / 64 % 64,
        128 + n % 64]

/-- Uppercase hexadecimal digit character for a value below 16. -/
def hexChar (d : Nat) : Char :=
  if d < 10 then Char.ofNat (48 + d) else Char.ofNat (55 + d)

/-- Percent-escape of one byte, as emitted by encodeURIComponent. -/
def byteEnc (b : Nat) : Str :=
  ['%', hexChar (b / 16), hexChar (b % 16)]

/-- Percent-encoding of one character, as by encodeURIComponent. -/
def encChar (c : Char) : Str :=
  if isUnreservedURI c then [c] else (utf8Encode c.toNat).flatMap byteEnc

/-- encodeURIComponent over the whole string. -/
def encodeURIComponentL (s : Str) : Str := s.flatMap encChar

/-- encodeForWhatsApp(text) from App.jsx: encodeURIComponent, then the
global replacement of "%5Cn" by "%0A", then the (identity) global
replacement of "%20" by "%20". -/
def encodeForWhatsApp (text : Str) : Str :=
  replaceAllL "%20".toList "%20".toList
    (replaceAllL "%5Cn".toList "%0A".toList (encodeURIComponentL text))

/-- The assembled WhatsApp deep link (App.jsx line 187):
https://wa.me/ phone ?text= encoded-message. -/
def buildMessageLink (phone message : Str) : Str :=
  "https://wa.me/".toList ++ phone ++ "?text=".toList
    ++ encodeForWhatsApp message

/-! ## Standard percent-decoding (decodeURIComponent) -/

/-- Hexadecimal digit value of a character, if any. -/
def hexVal (c : Char) : Option Nat :=
  if decide ('0' ≤ c) && decide (c ≤ '9') then some (c.toNat - 48)
  else if decide ('A' ≤ c) && decide (c ≤ 'F') then some (c.toNat - 55)
  else if decide ('a' ≤ c) && decide (c ≤ 'f') then some (c.toNat - 87)
  else none

/-- First pass of percent-decoding: percent escapes become bytes
(Sum.inr), all other characters pass through (Sum.inl); a percent sign
not followed by two hexadecimal digits is a decoding error. -/
def tokenizePercent : Str → Option (List (Char ⊕ Nat))
  | [] => some []
  | c :: rest =>
    if c = '%' then
      match rest with
      | h1 :: h2 :: rest2 =>
        match hexVal h1, hexVal h2 with
        | some a, some b =>
          (fun l => Sum.inr (16 * a + b) :: l) <$> tokenizePercent rest2
        | _, _ => none
      | _ => none
    else (fun l => Sum.inl c :: l) <$> tokenizePercent rest

/-- Second pass: decode maximal byte runs as UTF-8, one token at a time.
The state carries the partial code point and the number of continuation
bytes still expected inside a multi-byte sequence.  Ill-formed sequences
are decoding errors (this decoder is lenient about overlong forms, which
never arise from encodeURIComponent output). -/
def utf8DecodeAux : Option (Nat × Nat) → List (Char ⊕ Nat) → Option Str
  | none, [] => some []
  | some _, [] => none
  | none, Sum.inl c :: rest => (fun l => c :: l) <$> utf8DecodeAux none rest
  | some _, Sum.inl _ :: _ => none
  | none, Sum.inr b :: rest =>
    if b < 128 then
      (fun l => Char.ofNat b :: l) <$> utf8DecodeAux none rest
    else if b < 192 then none
    else if b < 224 then utf8DecodeAux (some (b - 192, 1)) rest
    else if b < 240 then utf8DecodeAux (some (b - 224, 2)) rest
    else if b < 248 then utf8DecodeAux (some (b - 240, 3)) rest
    else none
  | some (acc, k), Sum.inr b :: rest =>
    if 128 ≤ b ∧ b < 192 then
      if k = 1 then
        (fun l => Char.ofNat (acc * 64 + (b - 128)) :: l) <$>
          utf8DecodeAux none rest
      else utf8DecodeAux (some (acc * 64 + (b - 128), k - 1)) rest
    else none

/-- Decoding of a full token list starts and must end outside any
multi-byte sequence. -/
def utf8DecodeTokens (ts : List (Char ⊕ Nat)) : Option Str :=
  utf8DecodeAux none ts

/-- Standard percent-decoding (decodeURIComponent): percent unescaping
followed by UTF-8 decoding; none models a thrown URIError. -/
def decodePercent (s : Str) : Option Str :=
  tokenizePercent s >>= utf8DecodeTokens

/-! ## Record classifier and deduplicator (processed, App.jsx 160-200) -/

/-- One output record: the display fields plus the WhatsApp link. -/
structure Rec where
  name : Str
  role : Str
  phone : Str
  jd : Str
  wa : Str
deriving DecidableEq, Repr

/-- The three result buckets. -/
structure Buckets where
  out : List Rec
  missing : List Rec
  invalid : List Rec
deriving DecidableEq, Repr

/-- Normalized phone of a raw row, as the classifier computes it. -/
def rowPhoneOf (cc : Str) (ad : Bool) (r : Row) : Str :=
  cleanPhone (getVal (ensureColumns r) "Phone".toList) cc ad

/-- Normalized secondary link of a raw row. -/
def rowJdOf (r : Row) : Str :=
  normalizeUrlMaybe (getVal (ensureColumns r) "JD Link".toList)

/-- The record pushed into the usable bucket for a row that passes the
phone check: display fields, normalized phone and link, message link. -/
def mkOutRec (cc : Str) (ad : Bool) (tmpl : Str) (r : Row) : Rec :=
  let n := ensureColumns r
  let phone := cleanPhone (getVal n "Phone".toList) cc ad
  let jdNorm := normalizeUrlMaybe (getVal n "JD Link".toList)
  let message := generateMessage (setKey n "JD Link".toList jdNorm) tmpl
  ⟨getVal n "Name".toList, getVal n "Current Role".toList, phone, jdNorm,
   buildMessageLink phone message⟩

/-- The record pushed into the invalid bucket (empty WhatsApp link). -/
def mkInvRec (cc : Str) (ad : Bool) (r : Row) : Rec :=
  let n := ensureColumns r
  ⟨getVal n "Name".toList, getVal n "Current Role".toList,
   cleanPhone (getVal n "Phone".toList) cc ad,
   normalizeUrlMaybe (getVal n "JD Link".toList), []⟩

/-- The classification loop of the processed memo (App.jsx lines 160-191),
with the seen-phone set threaded explicitly. -/
def classifyGo (cc : Str) (ad dd : Bool) (tmpl : Str) (seen : List Str) :
    List Row → Buckets
  | [] => ⟨[], [], []⟩
  | r :: rest =>
    let phone := rowPhoneOf cc ad r
    let jdNorm := rowJdOf r
    if phone = [] then
      let b := classifyGo cc ad dd tmpl seen rest
      ⟨b.out,
       if jdNorm = [] then mkInvRec cc ad r :: b.missing else b.missing,
       mkInvRec cc ad r :: b.invalid⟩
    else if dd && decide (phone ∈ seen) then
      classifyGo cc ad dd tmpl seen rest
    else
      let b := classifyGo cc ad dd tmpl
        (if dd then phone :: seen else seen) rest
      ⟨mkOutRec cc ad tmpl r :: b.out,
       if jdNorm = [] then mkOutRec cc ad tmpl r :: b.missing
       else b.missing,
       b.invalid⟩

/-- The classifier on a fresh run (empty seen set). -/
def classifyRows (cc : Str) (ad dd : Bool) (tmpl : Str) (rows : List Row) :
    Buckets :=
  classifyGo cc ad dd tmpl [] rows

/-- The search filter (App.jsx lines 193-198): trimmed lowercased query;
empty query keeps the collection; otherwise keep records whose Name or
Current Role contains the query. -/
def filterByQuery (search : Str) (arr : List Rec) : List Rec :=
  let q := lowerStr (trimJs search)
  if q = [] then arr
  else arr.filter
    (fun r => hasSub q (lowerStr r.name) || hasSub q (lowerStr r.role))

/-- The full processed memo: classify, then filter each bucket. -/
def processedBuckets (cc : Str) (ad dd : Bool) (tmpl search : Str)
    (rows : List Row) : Buckets :=
  let b := classifyRows cc ad dd tmpl rows
  ⟨filterByQuery search b.out, filterByQuery search b.missing,
   filterByQuery search b.invalid⟩

/-- Token list produced by percent-decoding the encoding of one character:
unreserved characters pass through, the others appear as their UTF-8
bytes. -/
def tokensOfChar (c : Char) : List (Char ⊕ Nat) :=
  if isUnreservedURI c then [Sum.inl c]
  else (utf8Encode c.toNat).map Sum.inr

/-! ## Generic lemmas about the string helpers -/

theorem dropWhile_isJsWs_eq_self {s : Str} (h : ∀ c ∈ s, isJsWs c = false) :
    s.dropWhile isJsWs = s := by
  cases s with
  | nil => rfl
  | cons c cs => simp [List.dropWhile_cons, h c (by simp)]

theorem trimJs_eq_self {s : Str} (h : ∀ c ∈ s, isJsWs c = false) :
    trimJs s = s := by
  unfold trimJs
  rw [dropWhile_isJsWs_eq_self h,
    dropWhile_isJsWs_eq_self (fun c hc => h c (List.mem_reverse.mp hc)),
    List.reverse_reverse]

theorem filter_notWs_dropWhile (s : Str) :
    (s.dropWhile isJsWs).filter (fun c => !(isJsWs c))
      = s.filter (fun c => !(isJsWs c)) := by
  induction s with
  | nil => rfl
  | cons c cs ih =>
    by_cases h : isJsWs c = true
    · simp [List.dropWhile_cons, h, List.filter_cons, ih]
    · simp [List.dropWhile_cons, Bool.eq_false_iff.mpr h]

theorem filter_notWs_trimJs (s : Str) :
    (trimJs s).filter (fun c => !(isJsWs c))
      = s.filter (fun c => !(isJsWs c)) := by
  unfold trimJs
  rw [List.filter_reverse, filter_notWs_dropWhile, List.filter_reverse,
    List.reverse_reverse, filter_notWs_dropWhile]

theorem startsHttpScheme_https_append (t : Str) :
    startsHttpScheme ("https://".toList ++ t) = true := by
  unfold startsHttpScheme lowerStr
  rw [List.map_append]
  have : ("https://".toList.map Char.toLower) = "https://".toList := by decide
  rw [this]
  simp [List.isPrefixOf_iff_prefix]

theorem mem_filter_notWs {s : Str} {c : Char}
    (h : c ∈ s.filter (fun c => !(isJsWs c))) : isJsWs c = false := by
  have := List.of_mem_filter h
  simpa using this

theorem startsHttpScheme_ne_nil {s : Str} (h : startsHttpScheme s = true) :
    s ≠ [] := by
  intro hnil
  subst hnil
  simp [startsHttpScheme, lowerStr, List.isPrefixOf] at h

theorem https_chars_not_ws : ∀ c ∈ "https://".toList, isJsWs c = false := by
  decide

theorem normalizeUrlMaybe_fixed {y : Str}
    (hw : ∀ c ∈ y, isJsWs c = false) (hne : y ≠ [])
    (hs : startsHttpScheme y = true) : normalizeUrlMaybe y = y := by
  have hf : y.filter (fun c => !(isJsWs c)) = y :=
    List.filter_eq_self.mpr (fun c hc => by simp [hw c hc])
  simp only [normalizeUrlMaybe]
  rw [trimJs_eq_self hw, hf]
  simp [hne, hs]

/-- C6: normalizeLink (normalizeUrlMaybe) is idempotent: applying it twice
gives the same result as applying it once, for every input string. -/
theorem claim_C6_normalizeUrlMaybe_idem (x : Str) :
    normalizeUrlMaybe (normalizeUrlMaybe x) = normalizeUrlMaybe x := by
  by_cases h : trimJs x = []
  · have hx : normalizeUrlMaybe x = [] := by
      simp [normalizeUrlMaybe, h]
    rw [hx]
    rfl
  · have hclean : ∀ c ∈ (trimJs x).filter (fun c => !(isJsWs c)),
        isJsWs c = false := fun c hc => mem_filter_notWs hc
    by_cases hs : startsHttpScheme ((trimJs x).filter (fun c => !(isJsWs c)))
        = true
    · have hy : normalizeUrlMaybe x
          = (trimJs x).filter (fun c => !(isJsWs c)) := by
        unfold normalizeUrlMaybe
        simp only [h, if_false, hs, if_true]
      rw [hy]
      exact normalizeUrlMaybe_fixed hclean (startsHttpScheme_ne_nil hs) hs
    · have hy : normalizeUrlMaybe x
          = "https://".toList ++ (trimJs x).filter (fun c => !(isJsWs c)) := by
        simp only [normalizeUrlMaybe]
        simp [h, hs]
      rw [hy]
      refine normalizeUrlMaybe_fixed ?_ (by simp [String.toList]) ?_
      · intro c hc
        rcases List.mem_append.mp hc with hc | hc
        · exact https_chars_not_ws c hc
        · exact hclean c hc
      · exact startsHttpScheme_https_append _

/-- C7: normalizeLink (normalizeUrlMaybe) returns empty on inputs that trim
to empty; otherwise it removes all whitespace (trimming commutes into the
filter), keeps an existing case-insensitive http or https scheme unchanged,
and otherwise prepends https:// with no further validation. -/
theorem claim_C7_normalizeUrlMaybe_spec (x : Str) :
    (trimJs x = [] → normalizeUrlMaybe x = [])
    ∧ (trimJs x ≠ [] →
        (startsHttpScheme (x.filter (fun c => !(isJsWs c))) = true →
          normalizeUrlMaybe x = x.filter (fun c => !(isJsWs c)))
        ∧ (startsHttpScheme (x.filter (fun c => !(isJsWs c))) = false →
          normalizeUrlMaybe x
            = "https://".toList ++ x.filter (fun c => !(isJsWs c)))) := by
  constructor
  · intro h
    simp [normalizeUrlMaybe, h]
  · intro h
    constructor
    · intro hs
      simp only [normalizeUrlMaybe]
      rw [filter_notWs_trimJs]
      simp [h, hs]
    · intro hs
      simp only [normalizeUrlMaybe]
      rw [filter_notWs_trimJs]
      simp [h, hs]

/-- Witness for C7: a concrete scheme-less input gains the https prefix. -/
theorem claim_C7_witness :
    normalizeUrlMaybe " www.ikf.co.in /careers ".toList
      = "https://".toList
        ++ " www.ikf.co.in /careers ".toList.filter (fun c => !(isJsWs c)) :=
  ((claim_C7_normalizeUrlMaybe_spec " www.ikf.co.in /careers ".toList).2
    (by decide)).2 (by decide)

/-! ## Phone normalizer lemmas -/

theorem defaultCC_ne_nil (cc : Str) : defaultCC cc ≠ [] := by
  simp only [defaultCC]
  split
  · simp
  · assumption

theorem defaultCC_digits (cc : Str) : ∀ c ∈ defaultCC cc, c.isDigit = true := by
  simp only [defaultCC]
  split
  · decide
  · exact fun c hc => List.of_mem_filter hc

theorem cleanPhone_formula (raw cc : Str) (ad : Bool)
    (h : 10 ≤ (raw.filter Char.isDigit).length) :
    cleanPhone raw cc ad
      = (if ad && decide (10 < (raw.filter Char.isDigit).length)
         then (raw.filter Char.isDigit).take
            ((raw.filter Char.isDigit).length - 10)
         else defaultCC cc)
        ++ (raw.filter Char.isDigit).drop
            ((raw.filter Char.isDigit).length - 10) := by
  have hraw : raw ≠ [] := by
    intro e
    subst e
    simp at h
  have hlastlen : ((raw.filter Char.isDigit).drop
      ((raw.filter Char.isDigit).length - 10)).length = 10 := by
    rw [List.length_drop]
    omega
  have hlast_ne : (raw.filter Char.isDigit).drop
      ((raw.filter Char.isDigit).length - 10) ≠ [] := by
    intro e
    rw [e] at hlastlen
    simp at hlastlen
  simp only [cleanPhone, hraw, if_false]
  rw [if_neg hlast_ne]
  by_cases had : (ad && decide (10 < (raw.filter Char.isDigit).length)) = true
  · rw [if_pos had]
    have hdetlen : ((raw.filter Char.isDigit).take
        ((raw.filter Char.isDigit).length - 10)).length
        = (raw.filter Char.isDigit).length - 10 := by
      rw [List.length_take]
      omega
    have hlen10 : 10 < (raw.filter Char.isDigit).length := by
      rw [Bool.and_eq_true] at had
      exact of_decide_eq_true had.2
    have hdet_ne : (raw.filter Char.isDigit).take
        ((raw.filter Char.isDigit).length - 10) ≠ [] := by
      intro e
      rw [e] at hdetlen
      simp at hdetlen
      omega
    rw [if_neg hdet_ne, if_pos had]
  · rw [if_neg had, if_neg had]

/-- C3: for inputs with at least 10 digit characters, cleanPhone returns a
non-empty all-digit string ending in exactly the last 10 digits; with
autoDetect and more than 10 digits the leading digit remainder is the
prefix, otherwise the digit-stripped configured country code (defaulting
to 91) is. -/
theorem claim_C3_cleanPhone_long (raw cc : Str) (ad : Bool)
    (h : 10 ≤ (raw.filter Char.isDigit).length) :
    (cleanPhone raw cc ad ≠ []
      ∧ ∀ c ∈ cleanPhone raw cc ad, c.isDigit = true)
    ∧ List.IsSuffix
        ((raw.filter Char.isDigit).drop ((raw.filter Char.isDigit).length - 10))
        (cleanPhone raw cc ad)
    ∧ (ad = true → 10 < (raw.filter Char.isDigit).length →
        cleanPhone raw cc ad
          = (raw.filter Char.isDigit).take ((raw.filter Char.isDigit).length - 10)
            ++ (raw.filter Char.isDigit).drop
                ((raw.filter Char.isDigit).length - 10))
    ∧ (¬(ad = true ∧ 10 < (raw.filter Char.isDigit).length) →
        cleanPhone raw cc ad
          = defaultCC cc
            ++ (raw.filter Char.isDigit).drop
                ((raw.filter Char.isDigit).length - 10)) := by
  have main := cleanPhone_formula raw cc ad h
  have hlast_ne : (raw.filter Char.isDigit).drop
      ((raw.filter Char.isDigit).length - 10) ≠ [] := by
    intro e
    have := congrArg List.length e
    rw [List.length_drop] at this
    simp at this
    omega
  refine ⟨⟨?_, ?_⟩, ?_, ?_, ?_⟩
  · rw [main]
    intro e
    exact hlast_ne (List.append_eq_nil.mp e).2
  · rw [main]
    intro c hc
    rcases List.mem_append.mp hc with hc | hc
    · split at hc
      · exact List.of_mem_filter (List.mem_of_mem_take hc)
      · exact defaultCC_digits cc c hc
    · exact List.of_mem_filter (List.mem_of_mem_drop hc)
  · exact ⟨_, main.symm⟩
  · intro ha hlen
    rw [main, if_pos (by simp [ha, hlen])]
  · intro hn
    have hb : (ad && decide (10 < (raw.filter Char.isDigit).length)) = false := by
      cases ad <;> simp_all
    rw [main, if_neg (by simp [hb])]

/-- Witness for C3: the documented scenario phone value keeps its last ten
digits as a suffix of the normalized number. -/
theorem claim_C3_witness :
    List.IsSuffix
      (("+91 98765 43210".toList.filter Char.isDigit).drop
        (("+91 98765 43210".toList.filter Char.isDigit).length - 10))
      (cleanPhone "+91 98765 43210".toList "91".toList true) :=
  (claim_C3_cleanPhone_long "+91 98765 43210".toList "91".toList true
    (by decide)).2.1

theorem cleanPhone_no_digits (raw cc : Str) (ad : Bool)
    (h : raw.filter Char.isDigit = []) : cleanPhone raw cc ad = [] := by
  simp [cleanPhone, h]

theorem mkOutRec_phone (cc : Str) (ad : Bool) (tmpl : Str) (r : Row) :
    (mkOutRec cc ad tmpl r).phone = rowPhoneOf cc ad r := rfl

theorem classifyGo_out_phone_ne_nil (cc : Str) (ad dd : Bool) (tmpl : Str) :
    ∀ rows seen rec, rec ∈ (classifyGo cc ad dd tmpl seen rows).out →
      rec.phone ≠ [] := by
  intro rows
  induction rows with
  | nil =>
    intro seen rec hmem
    simp [classifyGo] at hmem
  | cons r rest ih =>
    intro seen rec hmem
    simp only [classifyGo] at hmem
    by_cases hp : rowPhoneOf cc ad r = []
    · rw [if_pos hp] at hmem
      exact ih seen rec hmem
    · rw [if_neg hp] at hmem
      by_cases hseen : (dd && decide (rowPhoneOf cc ad r ∈ seen)) = true
      · rw [if_pos hseen] at hmem
        exact ih seen rec hmem
      · rw [if_neg hseen] at hmem
        rcases List.mem_cons.mp hmem with hmem | hmem
        · rw [hmem, mkOutRec_phone]
          exact hp
        · exact ih _ rec hmem

/-- C1 counterexample: the input "123" has fewer than 10 digits, yet
cleanPhone returns "91123" (digits.slice(-10) in JavaScript returns the
whole short digit string), and the row lands in the usable bucket, not in
the invalid-phone bucket. -/
theorem claim_C1_cex :
    cleanPhone "123".toList "91".toList true = "91123".toList
    ∧ cleanPhone "123".toList "91".toList true ≠ []
    ∧ (classifyRows "91".toList true true "T".toList
        [[("Phone".toList, "123".toList)]]).out ≠ []
    ∧ (classifyRows "91".toList true true "T".toList
        [[("Phone".toList, "123".toList)]]).invalid = [] := by
  decide

/-- C1 amended: only inputs containing no digit character at all normalize
to the empty phone; such a row produces no usable record (it lands in the
invalid-phone bucket), and more generally every usable-bucket record has a
non-empty normalized phone. -/
theorem claim_C1_amended (cc : Str) (ad dd : Bool) (tmpl : Str) (r : Row)
    (h : (getVal (ensureColumns r) "Phone".toList).filter Char.isDigit = []) :
    rowPhoneOf cc ad r = []
    ∧ (classifyRows cc ad dd tmpl [r]).out = []
    ∧ (classifyRows cc ad dd tmpl [r]).invalid = [mkInvRec cc ad r]
    ∧ ∀ rows rec, rec ∈ (classifyRows cc ad dd tmpl rows).out →
        rec.phone ≠ [] := by
  have hp : rowPhoneOf cc ad r = [] :=
    cleanPhone_no_digits _ cc ad h
  refine ⟨hp, ?_, ?_, ?_⟩
  · simp [classifyRows, classifyGo, hp]
  · simp [classifyRows, classifyGo, hp]
  · intro rows rec hmem
    exact classifyGo_out_phone_ne_nil cc ad dd tmpl rows [] rec hmem

/-- Witness for C1 amended: a phone cell containing no digits yields the
empty normalized phone and only an invalid-bucket record. -/
theorem claim_C1_witness :
    rowPhoneOf "91".toList true [("Phone".toList, "abc".toList)] = []
    ∧ (classifyRows "91".toList true true "T".toList
        [[("Phone".toList, "abc".toList)]]).out = []
    ∧ (classifyRows "91".toList true true "T".toList
        [[("Phone".toList, "abc".toList)]]).invalid
      = [mkInvRec "91".toList true [("Phone".toList, "abc".toList)]]
    ∧ ∀ rows rec, rec ∈ (classifyRows "91".toList true true "T".toList
        rows).out → rec.phone ≠ [] :=
  claim_C1_amended "91".toList true true "T".toList
    [("Phone".toList, "abc".toList)] (by decide)

/-! ## Association-list and header-canonicalization lemmas -/

theorem setKey_of_not_mem {m : Row} {k : Str} (v : Str)
    (h : k ∉ m.map Prod.fst) : setKey m k v = m ++ [(k, v)] := by
  induction m with
  | nil => rfl
  | cons kv rest ih =>
    obtain ⟨k', v'⟩ := kv
    simp only [List.map_cons, List.mem_cons] at h
    push_neg at h
    simp only [setKey, if_neg (Ne.symm h.1), List.cons_append, ih h.2]

theorem setKey_keys_of_mem {m : Row} {k : Str} (v : Str)
    (h : k ∈ m.map Prod.fst) :
    (setKey m k v).map Prod.fst = m.map Prod.fst := by
  induction m with
  | nil => simp at h
  | cons kv rest ih =>
    obtain ⟨k', v'⟩ := kv
    by_cases he : k' = k
    · simp [setKey, he]
    · simp only [List.map_cons, List.mem_cons] at h
      rcases h with h | h
      · exact absurd h.symm he
      · simp [setKey, he, ih h]

theorem setKey_keys_sub {m : Row} {k k' : Str} (v : Str)
    (h : k' ∈ (setKey m k v).map Prod.fst) :
    k' ∈ m.map Prod.fst ∨ k' = k := by
  induction m with
  | nil =>
    simp [setKey] at h
    exact Or.inr h
  | cons kv rest ih =>
    obtain ⟨k'', v''⟩ := kv
    by_cases he : k'' = k
    · rw [show setKey ((k'', v'') :: rest) k v = (k, v) :: rest by
        simp [setKey, he]] at h
      simp only [List.map_cons, List.mem_cons] at h ⊢
      rcases h with h | h
      · exact Or.inr h
      · exact Or.inl (Or.inr h)
    · rw [show setKey ((k'', v'') :: rest) k v
          = (k'', v'') :: setKey rest k v by simp [setKey, he]] at h
      simp only [List.map_cons, List.mem_cons] at h ⊢
      rcases h with h | h
      · exact Or.inl (Or.inl h)
      · rcases ih h with h | h
        · exact Or.inl (Or.inr h)
        · exact Or.inr h

theorem lookupA_mem {m : List (Str × Str)} {k v : Str}
    (h : lookupA m k = some v) : (k, v) ∈ m := by
  induction m with
  | nil => simp [lookupA] at h
  | cons kv rest ih =>
    obtain ⟨k', v'⟩ := kv
    by_cases he : k' = k
    · rw [show lookupA ((k', v') :: rest) k = some v' by simp [lookupA, he]]
        at h
      subst he
      simp only [Option.some.injEq] at h
      subst h
      exact List.mem_cons_self _ _
    · rw [show lookupA ((k', v') :: rest) k = lookupA rest k by
        simp [lookupA, he]] at h
      exact List.mem_cons_of_mem _ (ih h)

theorem lookupA_none_of_not_mem {m : Row} {k : Str}
    (h : k ∉ m.map Prod.fst) : lookupA m k = none := by
  induction m with
  | nil => rfl
  | cons kv rest ih =>
    obtain ⟨k', v'⟩ := kv
    simp only [List.map_cons, List.mem_cons] at h
    push_neg at h
    simp [lookupA, Ne.symm h.1, ih h.2]

theorem lookupA_append_left {m m' : List (Str × Str)} {k v : Str}
    (h : lookupA m k = some v) : lookupA (m ++ m') k = some v := by
  induction m with
  | nil => simp [lookupA] at h
  | cons kv rest ih =>
    obtain ⟨k', v'⟩ := kv
    by_cases he : k' = k
    · simpa [lookupA, he] using h
    · simp only [lookupA, he, if_false, List.cons_append] at h ⊢
      exact ih h

theorem lookupA_append_right {m m' : List (Str × Str)} {k : Str}
    (h : lookupA m k = none) : lookupA (m ++ m') k = lookupA m' k := by
  induction m with
  | nil => rfl
  | cons kv rest ih =>
    obtain ⟨k', v'⟩ := kv
    by_cases he : k' = k
    · simp [lookupA, he] at h
    · simp only [lookupA, he, if_false, List.cons_append] at h ⊢
      exact ih h

theorem alias_targets_fixed :
    ∀ p ∈ HEADER_ALIASES, normalizeHeaderKey p.2 = p.2 := by
  decide

theorem required_columns_fixed :
    ∀ k ∈ REQUIRED_COLUMNS, normalizeHeaderKey k = k := by
  decide

theorem normalizeHeaderKey_idem (k : Str) :
    normalizeHeaderKey (normalizeHeaderKey k) = normalizeHeaderKey k := by
  cases h : lookupA HEADER_ALIASES (compactKey k) with
  | none =>
    have e : normalizeHeaderKey k = k := by simp [normalizeHeaderKey, h]
    rw [e]
    exact e
  | some v =>
    have e : normalizeHeaderKey k = v := by simp [normalizeHeaderKey, h]
    rw [e]
    exact alias_targets_fixed (compactKey k, v) (lookupA_mem h)

theorem nrh_keys_nodup_aux :
    ∀ (row : Row) (acc : Row), (acc.map Prod.fst).Nodup →
      ((row.foldl
        (fun acc kv => setKey acc (normalizeHeaderKey kv.1) kv.2)
        acc).map Prod.fst).Nodup := by
  intro row
  induction row with
  | nil => intro acc h; simpa using h
  | cons kv rest ih =>
    intro acc h
    obtain ⟨k, v⟩ := kv
    rw [List.foldl_cons]
    refine ih _ ?_
    by_cases hm : normalizeHeaderKey k ∈ acc.map Prod.fst
    · rw [setKey_keys_of_mem v hm]
      exact h
    · rw [setKey_of_not_mem v hm]
      simp only [List.map_append, List.map_cons, List.map_nil]
      refine List.Nodup.append h (List.nodup_singleton _) ?_
      simp only [List.disjoint_left, List.mem_singleton]
      intro a ha e
      rw [e] at ha
      exact hm ha

theorem nrh_keys_fixed_aux :
    ∀ (row : Row) (acc : Row),
      (∀ k ∈ acc.map Prod.fst, normalizeHeaderKey k = k) →
      ∀ k ∈ ((row.foldl
        (fun acc kv => setKey acc (normalizeHeaderKey kv.1) kv.2)
        acc).map Prod.fst), normalizeHeaderKey k = k := by
  intro row
  induction row with
  | nil => intro acc h; simpa using h
  | cons kv rest ih =>
    intro acc h
    obtain ⟨k0, v0⟩ := kv
    rw [List.foldl_cons]
    refine ih _ ?_
    intro k hk
    rcases setKey_keys_sub v0 hk with hk | hk
    · exact h k hk
    · rw [hk]
      exact normalizeHeaderKey_idem k0

theorem nrh_keys_nodup (row : Row) :
    ((normalizeRowHeaders row).map Prod.fst).Nodup :=
  nrh_keys_nodup_aux row [] (by simp)

theorem nrh_keys_fixed (row : Row) :
    ∀ k ∈ (normalizeRowHeaders row).map Prod.fst,
      normalizeHeaderKey k = k :=
  nrh_keys_fixed_aux row [] (by intro k hk; simp at hk)

theorem any_key_iff (m : Row) (key : Str) :
    (m.any fun kv => kv.1 == key) = true ↔ key ∈ m.map Prod.fst := by
  simp [List.any_eq_true, List.mem_map]

theorem ensure_keys_mono :
    ∀ (cols : List Str) (acc : Row) (k : Str), k ∈ acc.map Prod.fst →
      k ∈ ((cols.foldl
        (fun acc key =>
          if acc.any (fun kv => kv.1 == key) then acc else acc ++ [(key, [])])
        acc).map Prod.fst) := by
  intro cols
  induction cols with
  | nil => intro acc k h; simpa using h
  | cons key rest ih =>
    intro acc k h
    rw [List.foldl_cons]
    refine ih _ k ?_
    split
    · exact h
    · simp only [List.map_append]
      exact List.mem_append_left _ h

theorem ensure_keys_of_col :
    ∀ (cols : List Str) (acc : Row) (k : Str), k ∈ cols →
      k ∈ ((cols.foldl
        (fun acc key =>
          if acc.any (fun kv => kv.1 == key) then acc else acc ++ [(key, [])])
        acc).map Prod.fst) := by
  intro cols
  induction cols with
  | nil => intro acc k h; simp at h
  | cons key rest ih =>
    intro acc k h
    rw [List.foldl_cons]
    rcases List.mem_cons.mp h with h | h
    · subst h
      by_cases hm : (acc.any fun kv => kv.1 == k) = true
      · rw [if_pos hm]
        exact ensure_keys_mono rest acc k ((any_key_iff acc k).mp hm)
      · rw [if_neg hm]
        refine ensure_keys_mono rest _ k ?_
        simp
    · exact ih _ k h

theorem ensure_keys_sub :
    ∀ (cols : List Str) (acc : Row) (k : Str),
      k ∈ ((cols.foldl
        (fun acc key =>
          if acc.any (fun kv => kv.1 == key) then acc else acc ++ [(key, [])])
        acc).map Prod.fst) →
      k ∈ acc.map Prod.fst ∨ k ∈ cols := by
  intro cols
  induction cols with
  | nil =>
    intro acc k h
    rw [List.foldl_nil] at h
    exact Or.inl h
  | cons key rest ih =>
    intro acc k h
    rw [List.foldl_cons] at h
    rcases ih _ k h with h | h
    · revert h
      split
      · exact fun h => Or.inl h
      · intro h
        simp only [List.map_append, List.map_cons, List.map_nil,
          List.mem_append, List.mem_singleton] at h
        rcases h with h | h
        · exact Or.inl h
        · exact Or.inr (by simp [h])
    · exact Or.inr (List.mem_cons_of_mem _ h)

theorem ensure_lookup_preserved :
    ∀ (cols : List Str) (acc : Row) (k v : Str), lookupA acc k = some v →
      lookupA (cols.foldl
        (fun acc key =>
          if acc.any (fun kv => kv.1 == key) then acc else acc ++ [(key, [])])
        acc) k = some v := by
  intro cols
  induction cols with
  | nil => intro acc k v h; simpa using h
  | cons key rest ih =>
    intro acc k v h
    rw [List.foldl_cons]
    refine ih _ k v ?_
    split
    · exact h
    · exact lookupA_append_left h

theorem ensure_lookup_new :
    ∀ (cols : List Str) (acc : Row) (k : Str), k ∈ cols →
      k ∉ acc.map Prod.fst →
      lookupA (cols.foldl
        (fun acc key =>
          if acc.any (fun kv => kv.1 == key) then acc else acc ++ [(key, [])])
        acc) k = some [] := by
  intro cols
  induction cols with
  | nil => intro acc k h; simp at h
  | cons key rest ih =>
    intro acc k hc hm
    rw [List.foldl_cons]
    rcases List.mem_cons.mp hc with hk | hk
    · subst hk
      rw [if_neg (fun ha => hm ((any_key_iff acc k).mp ha))]
      refine ensure_lookup_preserved rest _ k [] ?_
      rw [lookupA_append_right (lookupA_none_of_not_mem hm)]
      simp [lookupA]
    · by_cases he : k = key
      · subst he
        rw [if_neg (fun ha => hm ((any_key_iff acc k).mp ha))]
        refine ensure_lookup_preserved rest _ k [] ?_
        rw [lookupA_append_right (lookupA_none_of_not_mem hm)]
        simp [lookupA]
      · refine ih _ k hk ?_
        intro hmem
        revert hmem
        split
        · exact hm
        · intro hmem
          simp only [List.map_append, List.map_cons, List.map_nil,
            List.mem_append, List.mem_singleton] at hmem
          rcases hmem with hmem | hmem
          · exact hm hmem
          · exact he hmem

theorem ensure_fold_eq_self :
    ∀ (cols : List Str) (acc : Row),
      (∀ k ∈ cols, k ∈ acc.map Prod.fst) →
      (cols.foldl
        (fun acc key =>
          if acc.any (fun kv => kv.1 == key) then acc else acc ++ [(key, [])])
        acc) = acc := by
  intro cols
  induction cols with
  | nil => intro acc _; rfl
  | cons key rest ih =>
    intro acc h
    rw [List.foldl_cons,
      if_pos ((any_key_iff acc key).mpr (h key (List.mem_cons_self _ _)))]
    exact ih _ (fun k hk => h k (List.mem_cons_of_mem _ hk))

theorem nrh_rebuild :
    ∀ (entries : Row) (pre : Row),
      ((pre.map Prod.fst ++ entries.map Prod.fst)).Nodup →
      (∀ k ∈ entries.map Prod.fst, normalizeHeaderKey k = k) →
      (entries.foldl
        (fun acc kv => setKey acc (normalizeHeaderKey kv.1) kv.2) pre)
        = pre ++ entries := by
  intro entries
  induction entries with
  | nil => intro pre _ _; simp
  | cons kv rest ih =>
    intro pre hnd hfix
    obtain ⟨k, v⟩ := kv
    have hk : normalizeHeaderKey k = k :=
      hfix k (by simp)
    have hknotpre : k ∉ pre.map Prod.fst := by
      rcases List.nodup_append.mp hnd with ⟨_, _, hdisj⟩
      intro hmem
      exact hdisj hmem (by simp)
    rw [List.foldl_cons, hk, setKey_of_not_mem v hknotpre]
    rw [ih (pre ++ [(k, v)])
      (by simpa using hnd)
      (fun k' hk' => hfix k' (by simp [hk']))]
    simp

/-- C4 counterexample: a row with a header that matches no alias keeps that
header verbatim, so the canonical row's key set is not exactly the six
canonical schema keys. -/
theorem claim_C4_cex :
    "Foo".toList ∈ (ensureColumns [("Foo".toList, "x".toList)]).map Prod.fst
    ∧ "Foo".toList ∉ REQUIRED_COLUMNS := by
  decide

/-- C4 amended: the canonical row's key set contains all six canonical
keys, every canonical key absent from the alias-normalized source maps to
the empty string (never omitted), and any further key is a pass-through
source header that matched no alias. -/
theorem claim_C4_amended (row : Row) :
    (∀ k ∈ REQUIRED_COLUMNS, k ∈ (ensureColumns row).map Prod.fst)
    ∧ (∀ k ∈ REQUIRED_COLUMNS,
        k ∉ (normalizeRowHeaders row).map Prod.fst →
        lookupA (ensureColumns row) k = some [])
    ∧ (∀ k ∈ (ensureColumns row).map Prod.fst,
        k ∈ (normalizeRowHeaders row).map Prod.fst ∨ k ∈ REQUIRED_COLUMNS) := by
  refine ⟨?_, ?_, ?_⟩
  · intro k hk
    exact ensure_keys_of_col REQUIRED_COLUMNS _ k hk
  · intro k hk hab
    exact ensure_lookup_new REQUIRED_COLUMNS _ k hk hab
  · intro k hk
    exact ensure_keys_sub REQUIRED_COLUMNS _ k hk

/-- Witness for C4 amended: on a row without any JD column, the canonical
key JD Link is present and holds the empty string. -/
theorem claim_C4_witness :
    "JD Link".toList
      ∈ (ensureColumns [("Foo".toList, "x".toList)]).map Prod.fst
    ∧ lookupA (ensureColumns [("Foo".toList, "x".toList)]) "JD Link".toList
      = some [] :=
  ⟨(claim_C4_amended [("Foo".toList, "x".toList)]).1 _ (by decide),
   (claim_C4_amended [("Foo".toList, "x".toList)]).2.1 _ (by decide)
     (by decide)⟩

/-- C10: header canonicalization with column defaulting (ensureColumns) is
idempotent, and in particular every canonical key is a fixed point of
compacting plus alias lookup. -/
theorem claim_C10_ensureColumns_idem (row : Row) :
    ensureColumns (ensureColumns row) = ensureColumns row
    ∧ (REQUIRED_COLUMNS.all fun k => normalizeHeaderKey k == k) = true := by
  constructor
  · have hnd : ((ensureColumns row).map Prod.fst).Nodup := by
      have h1 := nrh_keys_nodup row
      unfold ensureColumns
      generalize normalizeRowHeaders row = acc at h1 ⊢
      revert acc
      intro acc h1
      induction REQUIRED_COLUMNS generalizing acc with
      | nil => exact h1
      | cons key rest ih =>
        rw [List.foldl_cons]
        refine ih _ ?_
        split
        · exact h1
        · simp only [List.map_append, List.map_cons, List.map_nil]
          refine List.Nodup.append h1 (List.nodup_singleton _) ?_
          rename_i hany
          simp only [List.disjoint_left, List.mem_singleton]
          intro a ha e
          rw [e] at ha
          exact hany ((any_key_iff _ key).mpr ha)
    have hfix : ∀ k ∈ (ensureColumns row).map Prod.fst,
        normalizeHeaderKey k = k := by
      intro k hk
      rcases ensure_keys_sub REQUIRED_COLUMNS _ k hk with h | h
      · exact nrh_keys_fixed row k h
      · exact required_columns_fixed k h
    have hreq : ∀ k ∈ REQUIRED_COLUMNS,
        k ∈ (ensureColumns row).map Prod.fst :=
      fun k hk => ensure_keys_of_col REQUIRED_COLUMNS _ k hk
    have hnrh : normalizeRowHeaders (ensureColumns row)
        = ensureColumns row := by
      unfold normalizeRowHeaders
      have := nrh_rebuild (ensureColumns row) [] (by simpa using hnd) hfix
      simpa using this
    show REQUIRED_COLUMNS.foldl _ (normalizeRowHeaders (ensureColumns row))
        = ensureColumns row
    rw [hnrh]
    exact ensure_fold_eq_self REQUIRED_COLUMNS _ hreq
  · decide

/-! ## Query filter (C9) -/

/-- C9 counterexample: the source lowercases and trims the query before
matching, so the query " oh " (with surrounding spaces) keeps the record
named John even though neither field contains " oh " as a case-insensitive
substring. -/
theorem claim_C9_cex :
    filterByQuery " oh ".toList
      [⟨"John".toList, "Dev".toList, [], [], []⟩]
      = [⟨"John".toList, "Dev".toList, [], [], []⟩]
    ∧ hasSub (lowerStr " oh ".toList) (lowerStr "John".toList) = false
    ∧ hasSub (lowerStr " oh ".toList) (lowerStr "Dev".toList) = false := by
  decide

/-- C9 amended: the filter keeps exactly the records whose Name or Current
Role contains the trimmed query as a case-insensitive substring, preserving
order (a sublist); a query that trims to empty returns the collection
unchanged. -/
theorem claim_C9_amended (search : Str) (arr : List Rec) :
    (trimJs search = [] → filterByQuery search arr = arr)
    ∧ List.Sublist (filterByQuery search arr) arr
    ∧ ∀ r, r ∈ filterByQuery search arr ↔
        r ∈ arr ∧ (lowerStr (trimJs search) = []
          ∨ hasSub (lowerStr (trimJs search)) (lowerStr r.name) = true
          ∨ hasSub (lowerStr (trimJs search)) (lowerStr r.role) = true) := by
  refine ⟨?_, ?_, ?_⟩
  · intro h
    simp [filterByQuery, h, lowerStr]
  · simp only [filterByQuery]
    split
    · exact List.Sublist.refl arr
    · exact List.filter_sublist arr
  · intro r
    unfold filterByQuery
    by_cases hq : lowerStr (trimJs search) = []
    · simp [hq]
    · rw [if_neg hq]
      rw [List.mem_filter]
      simp only [hq, false_or, Bool.or_eq_true]

/-- Witness for C9 amended: a whitespace-only query leaves a concrete
collection unchanged. -/
theorem claim_C9_witness :
    filterByQuery "  ".toList [⟨"A".toList, "B".toList, [], [], []⟩]
      = [⟨"A".toList, "B".toList, [], [], []⟩] :=
  (claim_C9_amended "  ".toList
    [⟨"A".toList, "B".toList, [], [], []⟩]).1 (by decide)

/-! ## Template engine lemmas (C8) -/

theorem hasSub_false_head {pat : Str} {c : Char} {cs : Str}
    (h : hasSub pat (c :: cs) = false) :
    pat.isPrefixOf (c :: cs) = false ∧ hasSub pat cs = false := by
  have := h
  rw [show hasSub pat (c :: cs)
      = (pat.isPrefixOf (c :: cs) || hasSub pat cs) from rfl] at this
  exact ⟨(Bool.or_eq_false_iff.mp this).1, (Bool.or_eq_false_iff.mp this).2⟩

theorem replAux_eq_self {p : Char} {ps rep : Str} :
    ∀ (fuel : Nat) {s : Str}, hasSub (p :: ps) s = false →
      replAux p ps rep fuel s = s := by
  intro fuel
  induction fuel with
  | zero =>
    intro s _
    cases s <;> rfl
  | succ fuel ih =>
    intro s h
    cases s with
    | nil => rfl
    | cons c cs =>
      rcases hasSub_false_head h with ⟨h1, h2⟩
      rw [replAux, if_neg (by simp [h1]), ih h2]

theorem replaceAllL_eq_self {pat rep s : Str}
    (h : hasSub pat s = false) : replaceAllL pat rep s = s := by
  cases pat with
  | nil => rfl
  | cons p ps => exact replAux_eq_self s.length h

/-- C8: message rendering is total and predictable: an empty template is
replaced by the built-in default; a non-empty template containing none of
the three known placeholders is returned verbatim (unknown placeholders
stay literal text); and known placeholders whose values are empty are
replaced by the empty string, never by the placeholder text or by
"undefined" (shown on a template that also carries an unknown
placeholder). -/
theorem claim_C8_fillTemplate_total :
    (∀ v : TplValues, fillTemplate [] v = fillTemplate DEFAULT_TEMPLATE v)
    ∧ (∀ (tmpl : Str) (v : TplValues), tmpl ≠ [] →
        hasSub "{NAME}".toList tmpl = false →
        hasSub "{ROLE}".toList tmpl = false →
        hasSub "{JD_LINK}".toList tmpl = false →
        fillTemplate tmpl v = tmpl)
    ∧ fillTemplate "Dear {NAME}, your {FOO} role {ROLE}: {JD_LINK}".toList
        ⟨[], [], []⟩
      = "Dear , your {FOO} role : ".toList
    ∧ generateMessage [] "Hi {NAME}.".toList = "Hi .".toList := by
  refine ⟨?_, ?_, by decide, by decide⟩
  · intro v
    have hne : DEFAULT_TEMPLATE ≠ [] := by decide
    simp [fillTemplate, hne]
  · intro tmpl v hne h1 h2 h3
    simp only [fillTemplate]
    rw [if_neg hne, replaceAllL_eq_self h1, replaceAllL_eq_self h2,
      replaceAllL_eq_self h3]

/-- Witness for C8: a concrete template with only unknown placeholders is
rendered verbatim. -/
theorem claim_C8_witness :
    fillTemplate "Hello {WHO}!".toList
      ⟨"a".toList, "b".toList, "c".toList⟩ = "Hello {WHO}!".toList :=
  claim_C8_fillTemplate_total.2.1 "Hello {WHO}!".toList
    ⟨"a".toList, "b".toList, "c".toList⟩ (by decide) (by decide) (by decide)
    (by decide)

/-! ## Classifier and deduplication lemmas (C5) -/

theorem mkInvRec_phone (cc : Str) (ad : Bool) (r : Row) :
    (mkInvRec cc ad r).phone = rowPhoneOf cc ad r := rfl

theorem skip_cond_true {phone : Str} {seen : List Str}
    (h : phone ∈ seen) : (true && decide (phone ∈ seen)) = true := by
  simp [h]

theorem skip_cond_false {phone : Str} {seen : List Str}
    (h : phone ∉ seen) : (true && decide (phone ∈ seen)) ≠ true := by
  simp [h]

theorem classifyGo_nil (cc : Str) (ad dd : Bool) (tmpl : Str)
    (seen : List Str) : classifyGo cc ad dd tmpl seen [] = ⟨[], [], []⟩ := rfl

theorem classifyGo_cons_invalid (cc : Str) (ad dd : Bool) (tmpl : Str)
    (seen : List Str) (r : Row) (rest : List Row)
    (h : rowPhoneOf cc ad r = []) :
    classifyGo cc ad dd tmpl seen (r :: rest)
      = ⟨(classifyGo cc ad dd tmpl seen rest).out,
         if rowJdOf r = [] then
           mkInvRec cc ad r :: (classifyGo cc ad dd tmpl seen rest).missing
         else (classifyGo cc ad dd tmpl seen rest).missing,
         mkInvRec cc ad r
           :: (classifyGo cc ad dd tmpl seen rest).invalid⟩ := by
  simp only [classifyGo]
  rw [if_pos h]

theorem classifyGo_cons_skip (cc : Str) (ad dd : Bool) (tmpl : Str)
    (seen : List Str) (r : Row) (rest : List Row)
    (h1 : rowPhoneOf cc ad r ≠ [])
    (h2 : (dd && decide (rowPhoneOf cc ad r ∈ seen)) = true) :
    classifyGo cc ad dd tmpl seen (r :: rest)
      = classifyGo cc ad dd tmpl seen rest := by
  simp only [classifyGo]
  rw [if_neg h1, if_pos h2]

theorem classifyGo_cons_push (cc : Str) (ad dd : Bool) (tmpl : Str)
    (seen : List Str) (r : Row) (rest : List Row)
    (h1 : rowPhoneOf cc ad r ≠ [])
    (h2 : (dd && decide (rowPhoneOf cc ad r ∈ seen)) ≠ true) :
    classifyGo cc ad dd tmpl seen (r :: rest)
      = ⟨mkOutRec cc ad tmpl r
           :: (classifyGo cc ad dd tmpl
                (if dd then rowPhoneOf cc ad r :: seen else seen) rest).out,
         if rowJdOf r = [] then
           mkOutRec cc ad tmpl r
             :: (classifyGo cc ad dd tmpl
                  (if dd then rowPhoneOf cc ad r :: seen else seen)
                  rest).missing
         else (classifyGo cc ad dd tmpl
                (if dd then rowPhoneOf cc ad r :: seen else seen) rest).missing,
         (classifyGo cc ad dd tmpl
           (if dd then rowPhoneOf cc ad r :: seen else seen)
           rest).invalid⟩ := by
  simp only [classifyGo]
  rw [if_neg h1, if_neg h2]

theorem go_out_cons_invalid (cc : Str) (ad dd : Bool) (tmpl : Str)
    (seen : List Str) (r : Row) (rest : List Row)
    (h : rowPhoneOf cc ad r = []) :
    (classifyGo cc ad dd tmpl seen (r :: rest)).out
      = (classifyGo cc ad dd tmpl seen rest).out := by
  rw [classifyGo_cons_invalid cc ad dd tmpl seen r rest h]

theorem go_missing_cons_invalid (cc : Str) (ad dd : Bool) (tmpl : Str)
    (seen : List Str) (r : Row) (rest : List Row)
    (h : rowPhoneOf cc ad r = []) :
    (classifyGo cc ad dd tmpl seen (r :: rest)).missing
      = if rowJdOf r = [] then
          mkInvRec cc ad r :: (classifyGo cc ad dd tmpl seen rest).missing
        else (classifyGo cc ad dd tmpl seen rest).missing := by
  rw [classifyGo_cons_invalid cc ad dd tmpl seen r rest h]

theorem go_invalid_cons_invalid (cc : Str) (ad dd : Bool) (tmpl : Str)
    (seen : List Str) (r : Row) (rest : List Row)
    (h : rowPhoneOf cc ad r = []) :
    (classifyGo cc ad dd tmpl seen (r :: rest)).invalid
      = mkInvRec cc ad r :: (classifyGo cc ad dd tmpl seen rest).invalid := by
  rw [classifyGo_cons_invalid cc ad dd tmpl seen r rest h]

theorem go_out_cons_push (cc : Str) (ad : Bool) (tmpl : Str)
    (seen : List Str) (r : Row) (rest : List Row)
    (h1 : rowPhoneOf cc ad r ≠ [])
    (h2 : rowPhoneOf cc ad r ∉ seen) :
    (classifyGo cc ad true tmpl seen (r :: rest)).out
      = mkOutRec cc ad tmpl r
          :: (classifyGo cc ad true tmpl
              (rowPhoneOf cc ad r :: seen) rest).out := by
  rw [classifyGo_cons_push cc ad true tmpl seen r rest h1
    (skip_cond_false h2), if_pos rfl]

theorem go_missing_cons_push (cc : Str) (ad : Bool) (tmpl : Str)
    (seen : List Str) (r : Row) (rest : List Row)
    (h1 : rowPhoneOf cc ad r ≠ [])
    (h2 : rowPhoneOf cc ad r ∉ seen) :
    (classifyGo cc ad true tmpl seen (r :: rest)).missing
      = if rowJdOf r = [] then
          mkOutRec cc ad tmpl r
            :: (classifyGo cc ad true tmpl
                (rowPhoneOf cc ad r :: seen) rest).missing
        else (classifyGo cc ad true tmpl
              (rowPhoneOf cc ad r :: seen) rest).missing := by
  rw [classifyGo_cons_push cc ad true tmpl seen r rest h1
    (skip_cond_false h2), if_pos rfl]

theorem go_invalid_cons_push (cc : Str) (ad : Bool) (tmpl : Str)
    (seen : List Str) (r : Row) (rest : List Row)
    (h1 : rowPhoneOf cc ad r ≠ [])
    (h2 : rowPhoneOf cc ad r ∉ seen) :
    (classifyGo cc ad true tmpl seen (r :: rest)).invalid
      = (classifyGo cc ad true tmpl
          (rowPhoneOf cc ad r :: seen) rest).invalid := by
  rw [classifyGo_cons_push cc ad true tmpl seen r rest h1
    (skip_cond_false h2), if_pos rfl]

theorem filter_cons_pos {α : Type} (f : α → Bool) {x : α} {xs : List α}
    (h : f x = true) : (x :: xs).filter f = x :: xs.filter f := by
  simp [List.filter_cons, h]

theorem filter_cons_neg {α : Type} (f : α → Bool) {x : α} {xs : List α}
    (h : f x = false) : (x :: xs).filter f = xs.filter f := by
  simp [List.filter_cons, h]

theorem go_out_filter_mem (cc : Str) (ad : Bool) (tmpl : Str) (p : Str)
    (hp : p ≠ []) :
    ∀ (rows : List Row) (seen : List Str), p ∈ seen →
      ((classifyGo cc ad true tmpl seen rows).out.filter
        (fun rec => rec.phone == p)) = []
      ∧ ((classifyGo cc ad true tmpl seen rows).missing.filter
        (fun rec => rec.phone == p)) = [] := by
  intro rows
  induction rows with
  | nil =>
    intro seen _
    exact ⟨rfl, rfl⟩
  | cons r rest ih =>
    intro seen hseen
    by_cases hph : rowPhoneOf cc ad r = []
    · have hinv : ((mkInvRec cc ad r).phone == p) = false := by
        rw [mkInvRec_phone, hph]
        exact beq_false_of_ne (fun e => hp e.symm)
      rw [go_out_cons_invalid cc ad true tmpl seen r rest hph,
        go_missing_cons_invalid cc ad true tmpl seen r rest hph]
      refine ⟨(ih seen hseen).1, ?_⟩
      split
      · rw [filter_cons_neg (fun rec : Rec => rec.phone == p) hinv]
        exact (ih seen hseen).2
      · exact (ih seen hseen).2
    · by_cases hmem : rowPhoneOf cc ad r ∈ seen
      · rw [classifyGo_cons_skip cc ad true tmpl seen r rest hph
          (skip_cond_true hmem)]
        exact ih seen hseen
      · have hne : ((mkOutRec cc ad tmpl r).phone == p) = false := by
          rw [mkOutRec_phone]
          exact beq_false_of_ne (fun e => hmem (e ▸ hseen))
        have hmem' : p ∈ rowPhoneOf cc ad r :: seen :=
          List.mem_cons_of_mem _ hseen
        rw [go_out_cons_push cc ad tmpl seen r rest hph hmem,
          go_missing_cons_push cc ad tmpl seen r rest hph hmem]
        refine ⟨?_, ?_⟩
        · rw [filter_cons_neg (fun rec : Rec => rec.phone == p) hne]
          exact (ih _ hmem').1
        · split
          · rw [filter_cons_neg (fun rec : Rec => rec.phone == p) hne]
            exact (ih _ hmem').2
          · exact (ih _ hmem').2

theorem go_out_filter_new (cc : Str) (ad : Bool) (tmpl : Str) (p : Str)
    (hp : p ≠ []) :
    ∀ (rows : List Row) (seen : List Str), p ∉ seen →
      ((classifyGo cc ad true tmpl seen rows).out.filter
          (fun rec => rec.phone == p))
        = ((rows.filter (fun r => rowPhoneOf cc ad r == p)).take 1).map
            (mkOutRec cc ad tmpl)
      ∧ ((classifyGo cc ad true tmpl seen rows).missing.filter
          (fun rec => rec.phone == p))
        = (((rows.filter (fun r => rowPhoneOf cc ad r == p)).take 1).filter
            (fun r => rowJdOf r == ([] : Str))).map (mkOutRec cc ad tmpl) := by
  intro rows
  induction rows with
  | nil =>
    intro seen _
    exact ⟨rfl, rfl⟩
  | cons r rest ih =>
    intro seen hseen
    by_cases hph : rowPhoneOf cc ad r = []
    · have hrow : ((fun r : Row => rowPhoneOf cc ad r == p) r) = false := by
        simp only [hph]
        exact beq_false_of_ne (fun e => hp e.symm)
      have hinv : ((mkInvRec cc ad r).phone == p) = false := by
        rw [mkInvRec_phone, hph]
        exact beq_false_of_ne (fun e => hp e.symm)
      rw [go_out_cons_invalid cc ad true tmpl seen r rest hph,
        go_missing_cons_invalid cc ad true tmpl seen r rest hph,
        filter_cons_neg (fun r : Row => rowPhoneOf cc ad r == p) hrow]
      refine ⟨(ih seen hseen).1, ?_⟩
      split
      · rw [filter_cons_neg (fun rec : Rec => rec.phone == p) hinv]
        exact (ih seen hseen).2
      · exact (ih seen hseen).2
    · by_cases hmem : rowPhoneOf cc ad r ∈ seen
      · have hrow : ((fun r : Row => rowPhoneOf cc ad r == p) r) = false := by
          exact beq_false_of_ne (fun e => hseen (e ▸ hmem))
        rw [classifyGo_cons_skip cc ad true tmpl seen r rest hph
            (skip_cond_true hmem),
          filter_cons_neg (fun r : Row => rowPhoneOf cc ad r == p) hrow]
        exact ih seen hseen
      · by_cases heq : rowPhoneOf cc ad r = p
        · have hrow : ((fun r : Row => rowPhoneOf cc ad r == p) r) = true := by
            simp [heq]
          have hmk : ((mkOutRec cc ad tmpl r).phone == p) = true := by
            rw [mkOutRec_phone]
            simp [heq]
          have hmem' : p ∈ rowPhoneOf cc ad r :: seen := by
            rw [heq]
            exact List.mem_cons_self _ _
          have hrest := go_out_filter_mem cc ad tmpl p hp rest
            (rowPhoneOf cc ad r :: seen) hmem'
          rw [go_out_cons_push cc ad tmpl seen r rest hph hmem,
            go_missing_cons_push cc ad tmpl seen r rest hph hmem,
            filter_cons_pos (fun r : Row => rowPhoneOf cc ad r == p) hrow]
          refine ⟨?_, ?_⟩
          · rw [filter_cons_pos (fun rec : Rec => rec.phone == p) hmk,
              hrest.1]
            simp
          · split
            · rename_i hjd
              have hjdb : ((fun r : Row => rowJdOf r == ([] : Str)) r)
                  = true := by simp [hjd]
              rw [filter_cons_pos (fun rec : Rec => rec.phone == p) hmk,
                hrest.2]
              simp only [List.take_succ_cons, List.take_zero]
              rw [filter_cons_pos (fun r : Row => rowJdOf r == ([] : Str))
                hjdb]
              simp
            · rename_i hjd
              have hjdb : ((fun r : Row => rowJdOf r == ([] : Str)) r)
                  = false := by simpa using hjd
              rw [hrest.2]
              simp only [List.take_succ_cons, List.take_zero]
              rw [filter_cons_neg (fun r : Row => rowJdOf r == ([] : Str))
                hjdb]
              simp
        · have hrow : ((fun r : Row => rowPhoneOf cc ad r == p) r) = false :=
            beq_false_of_ne heq
          have hmk : ((mkOutRec cc ad tmpl r).phone == p) = false := by
            rw [mkOutRec_phone]
            exact beq_false_of_ne heq
          have hmem' : p ∉ rowPhoneOf cc ad r :: seen := by
            intro hc
            rcases List.mem_cons.mp hc with hc | hc
            · exact heq hc.symm
            · exact hseen hc
          rw [go_out_cons_push cc ad tmpl seen r rest hph hmem,
            go_missing_cons_push cc ad tmpl seen r rest hph hmem,
            filter_cons_neg (fun r : Row => rowPhoneOf cc ad r == p) hrow]
          refine ⟨?_, ?_⟩
          · rw [filter_cons_neg (fun rec : Rec => rec.phone == p) hmk]
            exact (ih _ hmem').1
          · split
            · rw [filter_cons_neg (fun rec : Rec => rec.phone == p) hmk]
              exact (ih _ hmem').2
            · exact (ih _ hmem').2

theorem go_out_nodup (cc : Str) (ad : Bool) (tmpl : Str) :
    ∀ (rows : List Row) (seen : List Str),
      (((classifyGo cc ad true tmpl seen rows).out.map Rec.phone).Nodup
        ∧ ∀ q ∈ (classifyGo cc ad true tmpl seen rows).out.map Rec.phone,
            q ∉ seen) := by
  intro rows
  induction rows with
  | nil =>
    intro seen
    constructor
    · simp [classifyGo_nil]
    · intro q hq
      simp [classifyGo_nil] at hq
  | cons r rest ih =>
    intro seen
    by_cases hph : rowPhoneOf cc ad r = []
    · rw [go_out_cons_invalid cc ad true tmpl seen r rest hph]
      exact ih seen
    · by_cases hmem : rowPhoneOf cc ad r ∈ seen
      · rw [classifyGo_cons_skip cc ad true tmpl seen r rest hph
          (skip_cond_true hmem)]
        exact ih seen
      · rw [go_out_cons_push cc ad tmpl seen r rest hph hmem]
        have hrec := ih (rowPhoneOf cc ad r :: seen)
        constructor
        · simp only [List.map_cons, mkOutRec_phone, List.nodup_cons]
          refine ⟨?_, hrec.1⟩
          intro hin
          exact hrec.2 _ hin (List.mem_cons_self _ _)
        · intro q hq
          simp only [List.map_cons, mkOutRec_phone, List.mem_cons] at hq
          rcases hq with hq | hq
          · rw [hq]
            exact hmem
          · intro hqs
            exact hrec.2 q hq (List.mem_cons_of_mem _ hqs)

theorem go_invalid_phone_empty (cc : Str) (ad dd : Bool) (tmpl : Str) :
    ∀ (rows : List Row) (seen : List Str),
      ∀ rec ∈ (classifyGo cc ad dd tmpl seen rows).invalid,
        rec.phone = [] ∧ rec.wa = [] := by
  intro rows
  induction rows with
  | nil =>
    intro seen rec h
    simp [classifyGo_nil] at h
  | cons r rest ih =>
    intro seen rec h
    simp only [classifyGo] at h
    by_cases hph : rowPhoneOf cc ad r = []
    · rw [if_pos hph] at h
      rcases List.mem_cons.mp h with h | h
      · rw [h]
        exact ⟨hph, rfl⟩
      · exact ih seen rec h
    · rw [if_neg hph] at h
      split at h
      · exact ih seen rec h
      · exact ih _ rec h

/-- C5: with deduplication enabled, the usable bucket has pairwise distinct
normalized phones; for every non-empty phone value, the usable records with
that phone are exactly the record generated from the first input row that
normalizes to it (later duplicates contribute nothing, to this or to any
other bucket: the missing bucket keeps at most that same first record, and
the invalid bucket holds no record with that phone). -/
theorem claim_C5_dedupe_first (cc : Str) (ad : Bool) (tmpl : Str)
    (rows : List Row) (p : Str) (hp : p ≠ []) :
    ((classifyRows cc ad true tmpl rows).out.map Rec.phone).Nodup
    ∧ (classifyRows cc ad true tmpl rows).out.filter
        (fun rec => rec.phone == p)
      = ((rows.filter (fun r => rowPhoneOf cc ad r == p)).take 1).map
          (mkOutRec cc ad tmpl)
    ∧ (classifyRows cc ad true tmpl rows).missing.filter
        (fun rec => rec.phone == p)
      = (((rows.filter (fun r => rowPhoneOf cc ad r == p)).take 1).filter
          (fun r => rowJdOf r == ([] : Str))).map (mkOutRec cc ad tmpl)
    ∧ (classifyRows cc ad true tmpl rows).invalid.filter
        (fun rec => rec.phone == p) = [] := by
  have hnew := go_out_filter_new cc ad tmpl p hp rows [] (by simp)
  refine ⟨(go_out_nodup cc ad tmpl rows []).1, hnew.1, hnew.2, ?_⟩
  rw [List.filter_eq_nil_iff]
  intro rec hrec
  have := (go_invalid_phone_empty cc ad true tmpl rows [] rec hrec).1
  simp [this]
  exact fun e => hp e

/-- Witness for C5: the documented duplicate scenario with phones
9876543210 and +91 9876543210; only the first row survives into the usable
bucket. -/
theorem claim_C5_witness :
    ((classifyRows "91".toList true true "T".toList
      [[("Name".toList, "A".toList), ("Phone".toList, "9876543210".toList)],
       [("Name".toList, "B".toList),
        ("Phone".toList, "+91 9876543210".toList)]]).out.map
      Rec.phone).Nodup
    ∧ (classifyRows "91".toList true true "T".toList
        [[("Name".toList, "A".toList), ("Phone".toList, "9876543210".toList)],
         [("Name".toList, "B".toList),
          ("Phone".toList, "+91 9876543210".toList)]]).out.filter
        (fun rec => rec.phone == "919876543210".toList)
      = (([[("Name".toList, "A".toList),
            ("Phone".toList, "9876543210".toList)],
          [("Name".toList, "B".toList),
           ("Phone".toList, "+91 9876543210".toList)]].filter
          (fun r => rowPhoneOf "91".toList true r
            == "919876543210".toList)).take 1).map
          (mkOutRec "91".toList true "T".toList)
    ∧ (classifyRows "91".toList true true "T".toList
        [[("Name".toList, "A".toList), ("Phone".toList, "9876543210".toList)],
         [("Name".toList, "B".toList),
          ("Phone".toList, "+91 9876543210".toList)]]).missing.filter
        (fun rec => rec.phone == "919876543210".toList)
      = ((([[("Name".toList, "A".toList),
             ("Phone".toList, "9876543210".toList)],
           [("Name".toList, "B".toList),
            ("Phone".toList, "+91 9876543210".toList)]].filter
           (fun r => rowPhoneOf "91".toList true r
             == "919876543210".toList)).take 1).filter
          (fun r => rowJdOf r == ([] : Str))).map
          (mkOutRec "91".toList true "T".toList)
    ∧ (classifyRows "91".toList true true "T".toList
        [[("Name".toList, "A".toList), ("Phone".toList, "9876543210".toList)],
         [("Name".toList, "B".toList),
          ("Phone".toList, "+91 9876543210".toList)]]).invalid.filter
        (fun rec => rec.phone == "919876543210".toList) = [] :=
  claim_C5_dedupe_first "91".toList true "T".toList
    [[("Name".toList, "A".toList), ("Phone".toList, "9876543210".toList)],
     [("Name".toList, "B".toList),
      ("Phone".toList, "+91 9876543210".toList)]]
    "919876543210".toList (by decide)

/-! ## Percent-encoding round-trip lemmas (C2) -/

theorem char_toNat_lt (c : Char) : c.toNat < 1114112 := by
  have e : c.toNat = c.val.toNat := rfl
  rcases c.valid with h | ⟨h1, h2⟩
  · have : c.val.toNat < 55296 := h
    omega
  · have : c.val.toNat < 1114112 := h2
    omega

theorem hexVal_hexChar : ∀ d, d < 16 → hexVal (hexChar d) = some d := by
  decide

theorem utf8Encode_lt {n : Nat} (h : n < 1114112) :
    ∀ b ∈ utf8Encode n, b < 256 := by
  unfold utf8Encode
  split
  · intro b hb
    simp only [List.mem_singleton] at hb
    omega
  · split
    · intro b hb
      simp only [List.mem_cons, List.not_mem_nil, or_false] at hb
      rcases hb with hb | hb <;> omega
    · split
      · intro b hb
        simp only [List.mem_cons, List.not_mem_nil, or_false] at hb
        rcases hb with hb | hb | hb <;> omega
      · intro b hb
        simp only [List.mem_cons, List.not_mem_nil, or_false] at hb
        rcases hb with hb | hb | hb | hb <;> omega

theorem tokenize_cons_unres {c : Char} (hc : c ≠ '%') (l : Str) :
    tokenizePercent (c :: l)
      = (fun ts => Sum.inl c :: ts) <$> tokenizePercent l := by
  rw [tokenizePercent.eq_def]
  simp [hc]

theorem tokenize_block {b : Nat} (hb : b < 256) (l : Str) :
    tokenizePercent (byteEnc b ++ l)
      = (fun ts => Sum.inr b :: ts) <$> tokenizePercent l := by
  have h1 : hexVal (hexChar (b / 16)) = some (b / 16) :=
    hexVal_hexChar _ (by omega)
  have h2 : hexVal (hexChar (b % 16)) = some (b % 16) :=
    hexVal_hexChar _ (by omega)
  have hb' : 16 * (b / 16) + b % 16 = b := by omega
  show tokenizePercent ('%' :: hexChar (b / 16) :: hexChar (b % 16) :: l) = _
  rw [tokenizePercent.eq_def]
  simp [h1, h2, hb']

theorem tokenize_blocks {bytes : List Nat} (hb : ∀ b ∈ bytes, b < 256)
    (l : Str) :
    tokenizePercent (bytes.flatMap byteEnc ++ l)
      = (fun ts => bytes.map Sum.inr ++ ts) <$> tokenizePercent l := by
  induction bytes with
  | nil =>
    simp only [List.flatMap_nil, List.nil_append, List.map_nil]
    cases tokenizePercent l <;> simp
  | cons b bs ih =>
    rw [List.flatMap_cons, List.append_assoc,
      tokenize_block (hb b (by simp)) _,
      ih (fun b hb' => hb b (List.mem_cons_of_mem _ hb'))]
    cases tokenizePercent l <;> simp

theorem unres_ne_percent {c : Char} (h : isUnreservedURI c = true) :
    c ≠ '%' := by
  intro e
  subst e
  exact absurd h (by decide)

theorem tokenize_encChar (c : Char) (l : Str) :
    tokenizePercent (encChar c ++ l)
      = (fun ts => tokensOfChar c ++ ts) <$> tokenizePercent l := by
  by_cases h : isUnreservedURI c = true
  · simp only [encChar, tokensOfChar, h, if_true, List.singleton_append,
      List.cons_append, List.nil_append]
    rw [tokenize_cons_unres (unres_ne_percent h)]
  · simp only [encChar, tokensOfChar, h, if_false, Bool.false_eq_true]
    rw [tokenize_blocks (utf8Encode_lt (char_toNat_lt c))]

theorem tokenize_encode (m : Str) :
    tokenizePercent (encodeURIComponentL m)
      = some (m.flatMap tokensOfChar) := by
  induction m with
  | nil => rfl
  | cons c rest ih =>
    have ih' : tokenizePercent (rest.flatMap encChar)
        = some (rest.flatMap tokensOfChar) := ih
    show tokenizePercent (encChar c ++ rest.flatMap encChar) = _
    rw [tokenize_encChar, ih']
    rfl

theorem dec_inl (c : Char) (ts : List (Char ⊕ Nat)) :
    utf8DecodeTokens (Sum.inl c :: ts)
      = (fun l => c :: l) <$> utf8DecodeTokens ts := by
  simp only [utf8DecodeTokens, utf8DecodeAux]

theorem dec_ascii {b1 : Nat} (h : b1 < 128) (ts : List (Char ⊕ Nat)) :
    utf8DecodeTokens (Sum.inr b1 :: ts)
      = (fun l => Char.ofNat b1 :: l) <$> utf8DecodeTokens ts := by
  simp [utf8DecodeTokens, utf8DecodeAux, h]

theorem dec_two {b1 b2 : Nat} (h1 : 192 ≤ b1) (h2 : b1 < 224)
    (h3 : 128 ≤ b2) (h4 : b2 < 192) (ts : List (Char ⊕ Nat)) :
    utf8DecodeTokens (Sum.inr b1 :: Sum.inr b2 :: ts)
      = (fun l => Char.ofNat ((b1 - 192) * 64 + (b2 - 128)) :: l) <$>
          utf8DecodeTokens ts := by
  have c1 : ¬ b1 < 128 := by omega
  have c2 : ¬ b1 < 192 := by omega
  simp [utf8DecodeTokens, utf8DecodeAux, c1, c2, h2, h3, h4]

theorem dec_three {b1 b2 b3 : Nat} (h1 : 224 ≤ b1) (h2 : b1 < 240)
    (h3 : 128 ≤ b2) (h4 : b2 < 192) (h5 : 128 ≤ b3) (h6 : b3 < 192)
    (ts : List (Char ⊕ Nat)) :
    utf8DecodeTokens (Sum.inr b1 :: Sum.inr b2 :: Sum.inr b3 :: ts)
      = (fun l => Char.ofNat ((b1 - 224) * 4096 + (b2 - 128) * 64
          + (b3 - 128)) :: l) <$> utf8DecodeTokens ts := by
  have harith : ((b1 - 224) * 64 + (b2 - 128)) * 64 + (b3 - 128)
      = (b1 - 224) * 4096 + (b2 - 128) * 64 + (b3 - 128) := by ring
  have c1 : ¬ b1 < 128 := by omega
  have c2 : ¬ b1 < 192 := by omega
  have c3 : ¬ b1 < 224 := by omega
  simp [utf8DecodeTokens, utf8DecodeAux, c1, c2, c3, h2, h3, h4, h5, h6,
    harith]

theorem dec_four {b1 b2 b3 b4 : Nat} (h1 : 240 ≤ b1) (h2 : b1 < 248)
    (h3 : 128 ≤ b2) (h4 : b2 < 192) (h5 : 128 ≤ b3) (h6 : b3 < 192)
    (h7 : 128 ≤ b4) (h8 : b4 < 192) (ts : List (Char ⊕ Nat)) :
    utf8DecodeTokens
        (Sum.inr b1 :: Sum.inr b2 :: Sum.inr b3 :: Sum.inr b4 :: ts)
      = (fun l => Char.ofNat ((b1 - 240) * 262144 + (b2 - 128) * 4096
          + (b3 - 128) * 64 + (b4 - 128)) :: l) <$> utf8DecodeTokens ts := by
  have harith : (((b1 - 240) * 64 + (b2 - 128)) * 64 + (b3 - 128)) * 64
        + (b4 - 128)
      = (b1 - 240) * 262144 + (b2 - 128) * 4096 + (b3 - 128) * 64
        + (b4 - 128) := by ring
  have c1 : ¬ b1 < 128 := by omega
  have c2 : ¬ b1 < 192 := by omega
  have c3 : ¬ b1 < 224 := by omega
  have c4 : ¬ b1 < 240 := by omega
  simp [utf8DecodeTokens, utf8DecodeAux, c1, c2, c3, c4, h2, h3, h4, h5,
    h6, h7, h8, harith]

theorem utf8Decode_tokensOfChar (c : Char) (ts : List (Char ⊕ Nat)) :
    utf8DecodeTokens (tokensOfChar c ++ ts)
      = (fun l => c :: l) <$> utf8DecodeTokens ts := by
  by_cases hu : isUnreservedURI c = true
  · simp only [tokensOfChar, hu, if_true, List.singleton_append]
    exact dec_inl c ts
  · simp only [tokensOfChar, hu, if_false, Bool.false_eq_true]
    have hlt := char_toNat_lt c
    by_cases h1 : c.toNat < 128
    · rw [show utf8Encode c.toNat = [c.toNat] by
        rw [utf8Encode, if_pos h1]]
      simp only [List.map_cons, List.map_nil, List.cons_append,
        List.nil_append]
      rw [dec_ascii h1, Char.ofNat_toNat]
    · by_cases h2 : c.toNat < 2048
      · rw [show utf8Encode c.toNat
            = [192 + c.toNat / 64, 128 + c.toNat % 64] by
          rw [utf8Encode, if_neg h1, if_pos h2]]
        simp only [List.map_cons, List.map_nil, List.cons_append,
          List.nil_append]
        rw [dec_two (by omega) (by omega) (by omega) (by omega)]
        rw [show (192 + c.toNat / 64 - 192) * 64 + (128 + c.toNat % 64 - 128)
            = c.toNat by omega]
        rw [Char.ofNat_toNat]
      · by_cases h3 : c.toNat < 65536
        · rw [show utf8Encode c.toNat
              = [224 + c.toNat / 4096, 128 + c.toNat / 64 % 64,
                 128 + c.toNat % 64] by
            rw [utf8Encode, if_neg h1, if_neg h2, if_pos h3]]
          simp only [List.map_cons, List.map_nil, List.cons_append,
            List.nil_append]
          rw [dec_three (by omega) (by omega) (by omega) (by omega)
            (by omega) (by omega)]
          rw [show (224 + c.toNat / 4096 - 224) * 4096
              + (128 + c.toNat / 64 % 64 - 128) * 64
              + (128 + c.toNat % 64 - 128) = c.toNat by omega]
          rw [Char.ofNat_toNat]
        · rw [show utf8Encode c.toNat
              = [240 + c.toNat / 262144, 128 + c.toNat / 4096 % 64,
                 128 + c.toNat / 64 % 64, 128 + c.toNat % 64] by
            rw [utf8Encode, if_neg h1, if_neg h2, if_neg h3]]
          simp only [List.map_cons, List.map_nil, List.cons_append,
            List.nil_append]
          rw [dec_four (by omega) (by omega) (by omega) (by omega)
            (by omega) (by omega) (by omega) (by omega)]
          rw [show (240 + c.toNat / 262144 - 240) * 262144
              + (128 + c.toNat / 4096 % 64 - 128) * 4096
              + (128 + c.toNat / 64 % 64 - 128) * 64
              + (128 + c.toNat % 64 - 128) = c.toNat by omega]
          rw [Char.ofNat_toNat]

theorem utf8Decode_flatMap (m : Str) :
    utf8DecodeTokens (m.flatMap tokensOfChar) = some m := by
  induction m with
  | nil => rfl
  | cons c rest ih =>
    rw [List.flatMap_cons, utf8Decode_tokensOfChar, ih]
    rfl

theorem decodePercent_encode (m : Str) :
    decodePercent (encodeURIComponentL m) = some m := by
  unfold decodePercent
  rw [tokenize_encode]
  show utf8DecodeTokens (m.flatMap tokensOfChar) = some m
  exact utf8Decode_flatMap m

theorem hexChar_ne_percent : ∀ d, d < 16 → ¬(hexChar d = '%') := by
  decide

theorem hexChar_five : ∀ d, d < 16 → hexChar d = '5' → d = 5 := by
  decide

theorem hexChar_cee : ∀ d, d < 16 → hexChar d = 'C' → d = 12 := by
  decide

theorem utf8Encode_ne_nil (n : Nat) : utf8Encode n ≠ [] := by
  unfold utf8Encode
  split
  · simp
  · split
    · simp
    · split <;> simp

theorem utf8Encode_bytes {n : Nat} (hlt : n < 1114112) (hne : n ≠ 92) :
    ∀ b ∈ utf8Encode n, b < 256 ∧ b ≠ 92 := by
  unfold utf8Encode
  split
  · intro b hb
    simp only [List.mem_singleton] at hb
    omega
  · split
    · intro b hb
      simp only [List.mem_cons, List.not_mem_nil, or_false] at hb
      rcases hb with hb | hb <;> omega
    · split
      · intro b hb
        simp only [List.mem_cons, List.not_mem_nil, or_false] at hb
        rcases hb with hb | hb | hb <;> omega
      · intro b hb
        simp only [List.mem_cons, List.not_mem_nil, or_false] at hb
        rcases hb with hb | hb | hb | hb <;> omega

theorem head_n_encode {m : Str} (h : List.isPrefixOf ['n'] m = false) :
    List.isPrefixOf ['n'] (encodeURIComponentL m) = false := by
  cases m with
  | nil => rfl
  | cons d m' =>
    show List.isPrefixOf ['n'] (encChar d ++ m'.flatMap encChar) = false
    by_cases hu : isUnreservedURI d = true
    · simp only [encChar, hu, if_true, List.singleton_append,
        List.cons_append, List.nil_append]
      simpa [List.isPrefixOf] using h
    · simp only [encChar, hu, if_false, Bool.false_eq_true]
      cases hE : utf8Encode d.toNat with
      | nil => exact absurd hE (utf8Encode_ne_nil _)
      | cons b bs =>
        have hnp : ('n' == '%') = false := by decide
        simp [List.flatMap_cons, byteEnc, List.cons_append,
          List.isPrefixOf, hnp]

theorem hasSub5Cn_block {b : Nat} (hb : b < 256) (hb92 : b ≠ 92) (t : Str) :
    hasSub ['%', '5', 'C', 'n'] (byteEnc b ++ t)
      = hasSub ['%', '5', 'C', 'n'] t := by
  have hd16 : b / 16 < 16 := by omega
  have hm16 : b % 16 < 16 := by omega
  have hp1 : ('%' == hexChar (b / 16)) = false :=
    beq_false_of_ne (fun e => hexChar_ne_percent _ hd16 e.symm)
  have hp2 : ('%' == hexChar (b % 16)) = false :=
    beq_false_of_ne (fun e => hexChar_ne_percent _ hm16 e.symm)
  have hpre : List.isPrefixOf ['%', '5', 'C', 'n']
      ('%' :: hexChar (b / 16) :: hexChar (b % 16) :: t) = false := by
    by_cases hd5 : b / 16 = 5
    · have hd12 : b % 16 ≠ 12 := by omega
      have hc : ('C' == hexChar (b % 16)) = false :=
        beq_false_of_ne (fun e => hd12 (hexChar_cee _ hm16 e.symm))
      simp [List.isPrefixOf, hc]
    · have hc : ('5' == hexChar (b / 16)) = false :=
        beq_false_of_ne (fun e => hd5 (hexChar_five _ hd16 e.symm))
      simp [List.isPrefixOf, hc]
  show hasSub ['%', '5', 'C', 'n']
      ('%' :: hexChar (b / 16) :: hexChar (b % 16) :: t) = _
  simp only [hasSub, hpre, Bool.false_or]
  have hq1 : List.isPrefixOf ['%', '5', 'C', 'n']
      (hexChar (b / 16) :: hexChar (b % 16) :: t) = false := by
    simp [List.isPrefixOf, hp1]
  have hq2 : List.isPrefixOf ['%', '5', 'C', 'n']
      (hexChar (b % 16) :: t) = false := by
    simp [List.isPrefixOf, hp2]
  simp only [hq1, hq2, Bool.false_or]

theorem hasSub5Cn_blocks {bytes : List Nat}
    (h : ∀ b ∈ bytes, b < 256 ∧ b ≠ 92) (t : Str) :
    hasSub ['%', '5', 'C', 'n'] (bytes.flatMap byteEnc ++ t)
      = hasSub ['%', '5', 'C', 'n'] t := by
  induction bytes with
  | nil => simp
  | cons b bs ih =>
    rw [List.flatMap_cons, List.append_assoc,
      hasSub5Cn_block (h b (by simp)).1 (h b (by simp)).2,
      ih (fun b hb => h b (List.mem_cons_of_mem _ hb))]

theorem char_ne_backslash_toNat {c : Char} (h : c ≠ '\\') : c.toNat ≠ 92 := by
  intro e
  apply h
  have := Char.ofNat_toNat c
  rw [e] at this
  exact this.symm

theorem hasSub5Cn_encode {m : Str} (h : hasSub ['\\', 'n'] m = false) :
    hasSub ['%', '5', 'C', 'n'] (encodeURIComponentL m) = false := by
  induction m with
  | nil => rfl
  | cons c m' ih =>
    have hsplit : List.isPrefixOf ['\\', 'n'] (c :: m') = false
        ∧ hasSub ['\\', 'n'] m' = false := by
      rw [show hasSub ['\\', 'n'] (c :: m')
          = (List.isPrefixOf ['\\', 'n'] (c :: m')
            || hasSub ['\\', 'n'] m') from rfl] at h
      exact ⟨(Bool.or_eq_false_iff.mp h).1, (Bool.or_eq_false_iff.mp h).2⟩
    have hE : encodeURIComponentL (c :: m')
        = encChar c ++ encodeURIComponentL m' := rfl
    rw [hE]
    by_cases hu : isUnreservedURI c = true
    · have hcp : ('%' == c) = false :=
        beq_false_of_ne (fun e => unres_ne_percent hu e.symm)
      simp only [encChar, hu, if_true, List.singleton_append,
        List.cons_append, List.nil_append]
      have hpre : List.isPrefixOf ['%', '5', 'C', 'n']
          (c :: encodeURIComponentL m') = false := by
        simp [List.isPrefixOf, hcp]
      simp only [hasSub, hpre, Bool.false_or]
      exact ih hsplit.2
    · by_cases hbs : c = '\\'
      · subst hbs
        have hEbs : encChar '\\' = ['%', '5', 'C'] := by decide
        rw [hEbs]
        have hn : List.isPrefixOf ['n'] m' = false := by
          have := hsplit.1
          simpa [List.isPrefixOf] using this
        have hnE : List.isPrefixOf ['n'] (encodeURIComponentL m') = false :=
          head_n_encode hn
        have hpre : List.isPrefixOf ['%', '5', 'C', 'n']
            ('%' :: '5' :: 'C' :: encodeURIComponentL m') = false := by
          simpa [List.isPrefixOf] using hnE
        have hq1 : List.isPrefixOf ['%', '5', 'C', 'n']
            ('5' :: 'C' :: encodeURIComponentL m') = false := by
          simp [List.isPrefixOf]
        have hq2 : List.isPrefixOf ['%', '5', 'C', 'n']
            ('C' :: encodeURIComponentL m') = false := by
          simp [List.isPrefixOf]
        show hasSub ['%', '5', 'C', 'n']
            ('%' :: '5' :: 'C' :: encodeURIComponentL m') = false
        simp only [hasSub, hpre, hq1, hq2, Bool.false_or]
        exact ih hsplit.2
      · simp only [encChar, hu, if_false, Bool.false_eq_true]
        rw [hasSub5Cn_blocks
          (utf8Encode_bytes (char_toNat_lt c) (char_ne_backslash_toNat hbs))]
        exact ih hsplit.2

theorem replAux_self (p : Char) (ps : Str) :
    ∀ (fuel : Nat) (s : Str), s.length ≤ fuel →
      replAux p ps (p :: ps) fuel s = s := by
  intro fuel
  induction fuel with
  | zero =>
    intro s hs
    cases s with
    | nil => rfl
    | cons c cs => simp at hs
  | succ fuel ih =>
    intro s hs
    cases s with
    | nil => rfl
    | cons c cs =>
      by_cases hpre : (p :: ps).isPrefixOf (c :: cs) = true
      · obtain ⟨t, ht⟩ := List.isPrefixOf_iff_prefix.mp hpre
        rw [replAux, if_pos hpre]
        have hdrop : (c :: cs).drop (ps.length + 1) = t := by
          rw [← ht, show ps.length + 1 = (p :: ps).length from by simp]
          exact List.drop_left _ _
        have hlen : t.length ≤ fuel := by
          have hl := congrArg List.length ht
          simp only [List.length_append, List.length_cons] at hl hs
          omega
        rw [hdrop, ih t hlen]
        exact ht
      · rw [replAux, if_neg hpre, ih cs (by
          simp only [List.length_cons] at hs
          omega)]

theorem replaceAllL_self (pat s : Str) : replaceAllL pat pat s = s := by
  cases pat with
  | nil => rfl
  | cons p ps => exact replAux_self p ps s.length s (Nat.le_refl _)

theorem encodeForWhatsApp_of_noBN {m : Str}
    (h : hasSub ['\\', 'n'] m = false) :
    encodeForWhatsApp m = encodeURIComponentL m := by
  have h5 : hasSub "%5Cn".toList (encodeURIComponentL m) = false := by
    rw [show ("%5Cn".toList : Str) = ['%', '5', 'C', 'n'] from by decide]
    exact hasSub5Cn_encode h
  unfold encodeForWhatsApp
  rw [replaceAllL_eq_self h5, replaceAllL_self]

/-- C2 counterexample: the ad-hoc replacement of "%5Cn" by "%0A" inside
encodeForWhatsApp turns a literal backslash followed by the letter n into
an encoded newline, so standard percent-decoding of the link's text
parameter does not reproduce that message. -/
theorem claim_C2_cex :
    decodePercent (encodeForWhatsApp ['\\', 'n']) = some ['\n']
    ∧ some ['\n'] ≠ some (['\\', 'n'] : Str) := by
  decide

/-- C2 amended: for every phone and every message that does not contain a
backslash immediately followed by the letter n, the link built by
buildMessageLink carries encodeForWhatsApp of the message as its text
query parameter, and standard percent-decoding of that parameter yields
back the original message exactly (newlines, spaces and asterisk markers
included). -/
theorem claim_C2_roundtrip (phone message : Str)
    (h : hasSub ['\\', 'n'] message = false) :
    buildMessageLink phone message
      = "https://wa.me/".toList ++ phone ++ "?text=".toList
        ++ encodeForWhatsApp message
    ∧ decodePercent (encodeForWhatsApp message) = some message := by
  refine ⟨rfl, ?_⟩
  rw [encodeForWhatsApp_of_noBN h]
  exact decodePercent_encode message

/-- Witness for C2 amended: a concrete message with newline, spaces and
asterisk markers round-trips through the link encoding. -/
theorem claim_C2_witness :
    decodePercent (encodeForWhatsApp "Hi *there*,\n see role".toList)
      = some "Hi *there*,\n see role".toList :=
  (claim_C2_roundtrip [] "Hi *there*,\n see role".toList (by decide)).2
